import Mathlib

set_option maxRecDepth 100000

namespace Inky

/-! ## Chunker (`chunkText`, src/unnamed/part_011 and part_012)

The JS `while` loop runs while `start < text.length && iterations < maxIterations`;
we embed the remaining iteration budget `maxIterations - iterations` as fuel.
`text.slice(start, end)` with `0 ≤ start ≤ end` is `(text.drop start).take (end - start)`.
JS `end - safeOverlap` may be negative; it is then `≤ start`, which matches the
truncated `Nat` subtraction (`0 ≤ start`), so both take the `start + 1` branch. -/

/-- One loop of `chunkText`: returns the chunks pushed from state `start` on,
with `fuel` remaining iterations. -/

def chunkLoop (text : List α) (csize ov : Nat) : Nat → Nat → List (List α)
  | 0, _ => []
  | fuel + 1, start =>
    if start < text.length then
      let e := min (start + csize) text.length
      let chunk := (text.drop start).take (e - start)
      let nextStart := e - ov
      let start2 := if nextStart ≤ start then start + 1 else nextStart
      let rest := chunkLoop text csize ov fuel start2
      if chunk.length > 0 then chunk :: rest else rest
    else []

/-- Same loop, counting the number of iterations executed. -/

def chunkLoopIters (text : List α) (csize ov : Nat) : Nat → Nat → Nat
  | 0, _ => 0
  | fuel + 1, start =>
    if start < text.length then
      let e := min (start + csize) text.length
      let nextStart := e - ov
      let start2 := if nextStart ≤ start then start + 1 else nextStart
      chunkLoopIters text csize ov fuel start2 + 1
    else 0

/-- The iteration cap: `Math.ceil(text.length / Math.max(1, safeChunkSize - safeOverlap)) + 10`. -/

def maxIterations (len csize ov : Nat) : Nat :=
  (len + max 1 (csize - ov) - 1) / max 1 (csize - ov) + 10

/-- Embedding of `chunkText(text, chunkSize, overlap)` from src/unnamed/part_011
and (identically) part_012. -/

def chunkText (text : List α) (chunkSize overlap : Nat) : List (List α) :=
  if text.length = 0 then []
  else
    let safeOverlap := min overlap (max 0 (chunkSize - 1))
    let safeChunkSize := max 1 chunkSize
    let chunks := chunkLoop text safeChunkSize safeOverlap
      (maxIterations text.length safeChunkSize safeOverlap) 0
    if chunks.length > 0 then chunks else [text]

/-- Number of loop iterations `chunkText` executes on the given input. -/

def chunkTextIters (text : List α) (chunkSize overlap : Nat) : Nat :=
  if text.length = 0 then 0
  else
    let safeOverlap := min overlap (max 0 (chunkSize - 1))
    let safeChunkSize := max 1 chunkSize
    chunkLoopIters text safeChunkSize safeOverlap
      (maxIterations text.length safeChunkSize safeOverlap) 0

/-- Every chunk with its first `ov` elements dropped, concatenated: the tail
part of the overlap-removed reconstruction. -/

def tailReconstruct (ov : Nat) (l : List (List α)) : List α :=
  (l.map (List.drop ov)).flatten

/-- Concatenation with the `ov`-element overlap between consecutive chunks
removed: the first chunk in full, every later chunk with its first `ov`
elements dropped. -/

def reconstruct (ov : Nat) : List (List α) → List α
  | [] => []
  | c :: rest => c ++ tailReconstruct ov rest

/-- Lengths-only image of `chunkLoop`: the same control flow, recording only
the length of each pushed chunk.  Lets concrete runs be evaluated without
materialising long lists. -/

def chunkLens (len csize ov : Nat) : Nat → Nat → List Nat
  | 0, _ => []
  | fuel + 1, start =>
    if start < len then
      let e := min (start + csize) len
      let nextStart := e - ov
      let start2 := if nextStart ≤ start then start + 1 else nextStart
      let rest := chunkLens len csize ov fuel start2
      if e - start > 0 then (e - start) :: rest else rest
    else []

/-- Lengths-only image of `chunkText`. -/

def chunkTextLens (len csize ov : Nat) : List Nat :=
  if len = 0 then []
  else
    let safeOverlap := min ov (max 0 (csize - 1))
    let safeChunkSize := max 1 csize
    let lens := chunkLens len safeChunkSize safeOverlap
      (maxIterations len safeChunkSize safeOverlap) 0
    if lens.length > 0 then lens else [len]

/-! ## JS string primitives used by the pipeline -/

/-- JS `String.prototype.split(sep)` over the character list: split on every
occurrence of the separator, keeping empty pieces (`"".split(",") = [""]`). -/

def splitListOn (sep : Char) : List Char → List (List Char)
  | [] => [[]]
  | c :: cs =>
    match splitListOn sep cs with
    | [] => [[]]
    | p :: ps => if c = sep then [] :: p :: ps else (c :: p) :: ps

/-- JS `s.split(sep)` for a single-character separator. -/

def jsSplit (s : String) (sep : Char) : List String :=
  (splitListOn sep s.data).map (fun l => ⟨l⟩)

/-- JS `s.trim()`: strip leading and trailing whitespace. -/

def jsTrim (s : String) : String :=
  ⟨((s.data.dropWhile Char.isWhitespace).reverse.dropWhile Char.isWhitespace).reverse⟩

/-- JS `array.join(sep)`. -/

def jsJoin (sep : String) : List String → String
  | [] => ""
  | [x] => x
  | x :: xs => x ++ sep ++ jsJoin sep xs

/-! ## Vector index gateway and RAG orchestrator
(src/lib/pinecone.ts, src/unnamed/part_010, src/unnamed/part_012) -/

/-- Vector metadata as written by `indexMarkdownFilesToPinecone` (markdown
chunks) and the rule indexer; fields a record does not carry are `none`
(`repository_ids`, stored as a comma-joined string, is `""` when absent,
matching the JS falsy check). -/

structure VMeta where
  user_id : String
  type : String
  repository_ids : String := ""
  content : Option String := none
  rule_id : Option String := none
  repository_id : Option String := none
  deriving Repr, DecidableEq

/-- One query match: id, similarity score and metadata. -/

structure VMatch where
  id : String
  score : Int
  metadata : VMeta
  deriving Repr, DecidableEq

/-- One record of the shared vector index: the namespace it lives in plus the
match data, listed in descending similarity order for the query at hand. -/

structure NsRec where
  ns : String
  entry : VMatch
  deriving Repr, DecidableEq

/-- Model of `index.namespace(ns).query({topK, filter})`: up to `topK` records
of the namespace whose metadata passes the filter, in the store's order. -/

def pineconeQuery (store : List NsRec) (ns : String) (filt : VMeta → Bool)
    (topK : Nat) : List VMatch :=
  ((store.filter (fun r => r.ns == ns && filt r.entry.metadata)).map (fun r => r.entry)).take topK

/-- `getUserNamespace` / `getUserPineconeNamespace` (src/unnamed/part_010):
the namespace is derived deterministically from the user id. -/

def getUserNamespace (userId : String) : String :=
  "user_" ++ userId

/-- The metadata filter of `generateRulesWithRAG`:
`{ user_id: userId, type: "markdown" }`. -/

def ragFilter (userId : String) (m : VMeta) : Bool :=
  m.user_id == userId && m.type == "markdown"

/-- Step (2) of `generateRulesWithRAG`: query the user's namespace for up to
`topK * 2` matches under the user/markdown filter. -/

def ragSearch (store : List NsRec) (userId : String) (topK : Nat) : List VMatch :=
  pineconeQuery store (getUserNamespace userId) (ragFilter userId) (topK * 2)

/-- The in-code repository filter: keep a match when its comma-joined
`repository_ids` metadata (falsy check first) shares an id with the request. -/

def repoKeep (repositoryIds : List String) (m : VMatch) : Bool :=
  if m.metadata.repository_ids == "" then false
  else repositoryIds.any (fun rid => (jsSplit m.metadata.repository_ids ',').contains rid)

/-- Step (3): filter by repository ids only when some were requested. -/

def filteredResults (store : List NsRec) (userId : String)
    (repositoryIds : List String) (topK : Nat) : List VMatch :=
  let sr := ragSearch store userId topK
  if repositoryIds.length > 0 then sr.filter (repoKeep repositoryIds) else sr

/-- Step (4): the first `topK` survivors' stored preview texts. -/

def contextChunks (store : List NsRec) (userId : String)
    (repositoryIds : List String) (topK : Nat) : List String :=
  ((filteredResults store userId repositoryIds topK).take topK).filterMap
    (fun m => m.metadata.content)

/-- The separator joining context chunks. -/

def contextSep : String := "\n\n---\n\n"

/-- The prompt context: previews joined by the separator. -/

def ragContext (store : List NsRec) (userId : String)
    (repositoryIds : List String) (topK : Nat) : String :=
  jsJoin contextSep (contextChunks store userId repositoryIds topK)

/-- The explicit marker substituted for an empty context. -/

def noContextMarker : String := "No relevant context found in markdown files."

/-- The fixed system instruction of the completion call (fixed text; its exact
wording is irrelevant to the claims). -/

def ragSystemPrompt : String :=
  "You are an expert at analyzing code repositories and generating comprehensive coding rules and guidelines."

/-- The user message of the completion call: query plus shown context
(the template interpolates the context, or the marker when it is falsy). -/

def ragUserPrompt (query shownContext : String) : String :=
  "Based on the following query and retrieved context from markdown files, generate comprehensive coding rules:\n\n## Query:\n"
    ++ query
    ++ "\n\n## Retrieved Context from Markdown Files (RAG):\n"
    ++ shownContext
    ++ "\n\nPlease generate detailed coding rules that are specific and actionable. Return ONLY the rule content, no explanations or meta-commentary."

/-- Embedding of `generateRulesWithRAG` (src/unnamed/part_012, lines 153-264).
The external services are parameters: the vector store stands for the Pinecone
index (the query embedding only selects the store's order, which is abstract
here), and `llm sys user` returns the completion's message content, `none` when
absent.  The return value is `completion.choices[0]?.message?.content?.trim() || ""`. -/

def generateRulesWithRAG (llm : String → String → Option String) (store : List NsRec)
    (query userId : String) (repositoryIds : List String) (topK : Nat) : String :=
  let context := ragContext store userId repositoryIds topK
  let shown := if context == "" then noContextMarker else context
  match llm ragSystemPrompt (ragUserPrompt query shown) with
  | none => ""
  | some c => jsTrim c

/-! ## MCP protocol endpoint, `search_rules` tool (src/app/api/mcp/route.ts) -/

/-- A `Rule` row as selected by the endpoint's Prisma queries. -/

structure DbRule where
  id : String
  user_id : String
  name : String
  content : String
  version : Nat
  is_active : Bool
  repository_id : Option String := none
  created_at : Nat := 0
  deriving Repr, DecidableEq

/-- The metadata filter of the `search_rules` tool:
`{ user_id, ...(repository_id ? { repository_id } : {}), type: "rule" }`. -/

def searchRulesFilter (userId : String) (repository_id : Option String)
    (m : VMeta) : Bool :=
  m.user_id == userId &&
    (match repository_id with
     | some rid => m.repository_id == some rid
     | none => true) &&
    m.type == "rule"

/-- The vector query of `search_rules`: the caller's namespace, `top_k` matches. -/

def searchRulesMatches (store : List NsRec) (userId : String) (top_k : Nat)
    (repository_id : Option String) : List VMatch :=
  pineconeQuery store (getUserNamespace userId) (searchRulesFilter userId repository_id) top_k

/-- The rule ids extracted from the matches' metadata. -/

def searchRulesRuleIds (store : List NsRec) (userId : String) (top_k : Nat)
    (repository_id : Option String) : List String :=
  (searchRulesMatches store userId top_k repository_id).filterMap
    (fun m => m.metadata.rule_id)

/-- The Prisma fetch: rules whose id is among the matches and whose owner is
the caller. -/

def searchRulesDbRules (store : List NsRec) (db : List DbRule) (userId : String)
    (top_k : Nat) (repository_id : Option String) : List DbRule :=
  db.filter (fun r =>
    (searchRulesRuleIds store userId top_k repository_id).contains r.id &&
      r.user_id == userId)

/-- A rule paired with its relevance score. -/

structure ScoredRule where
  rule : DbRule
  relevance_score : Int
  deriving Repr, DecidableEq

/-- The `search_rules` result: fetched rules with their match scores, sorted by
descending relevance. -/

def searchRules (store : List NsRec) (db : List DbRule) (userId : String)
    (top_k : Nat) (repository_id : Option String) : List ScoredRule :=
  ((searchRulesDbRules store db userId top_k repository_id).map (fun r =>
      ⟨r, (((searchRulesMatches store userId top_k repository_id).find?
        (fun m => m.metadata.rule_id == some r.id)).map (fun m => m.score)).getD 0⟩)).mergeSort
    (fun a b => b.relevance_score ≤ a.relevance_score)

/-! ## SHA-256 and token hashing (src/lib/mcp-token.ts `hashToken`)

`hashToken` is `createHash("sha256").update(token).digest("hex")`: the plain
SHA-256 digest of the token's bytes, hex-encoded.  SHA-256 (FIPS 180-4) is
implemented below over byte lists; tokens are ASCII (`inky_` plus base64url),
for which `Char.toNat` equals the UTF-8 byte. -/

/-- Right-rotation of a 32-bit word. -/

def rotr (n x : Nat) : Nat :=
  (x / 2 ^ n + x % 2 ^ n * 2 ^ (32 - n)) % 2 ^ 32

/-- Bitwise complement within 32 bits (for `x < 2^32`). -/

def not32 (x : Nat) : Nat := 2 ^ 32 - 1 - x

def smallSigma0 (x : Nat) : Nat := rotr 7 x ^^^ rotr 18 x ^^^ x / 2 ^ 3

def smallSigma1 (x : Nat) : Nat := rotr 17 x ^^^ rotr 19 x ^^^ x / 2 ^ 10

def bigSigma0 (x : Nat) : Nat := rotr 2 x ^^^ rotr 13 x ^^^ rotr 22 x

def bigSigma1 (x : Nat) : Nat := rotr 6 x ^^^ rotr 11 x ^^^ rotr 25 x

def ch (x y z : Nat) : Nat := x &&& y ^^^ not32 x &&& z

def maj (x y z : Nat) : Nat := x &&& y ^^^ x &&& z ^^^ y &&& z

/-- The SHA-256 round constants. -/

def K256 : List Nat :=
  [1116352408, 1899447441, 3049323471, 3921009573, 961987163, 1508970993,
   2453635748, 2870763221, 3624381080, 310598401, 607225278, 1426881987,
   1925078388, 2162078206, 2614888103, 3248222580, 3835390401, 4022224774,
   264347078, 604807628, 770255983, 1249150122, 1555081692, 1996064986,
   2554220882, 2821834349, 2952996808, 3210313671, 3336571891, 3584528711,
   113926993, 338241895, 666307205, 773529912, 1294757372, 1396182291,
   1695183700, 1986661051, 2177026350, 2456956037, 2730485921, 2820302411,
   3259730800, 3345764771, 3516065817, 3600352804, 4094571909, 275423344,
   430227734, 506948616, 659060556, 883997877, 958139571, 1322822218,
   1537002063, 1747873779, 1955562222, 2024104815, 2227730452, 2361852424,
   2428436474, 2756734187, 3204031479, 3329325298]

/-- The SHA-256 initial state. -/

def H256 : List Nat :=
  [1779033703, 3144134277, 1013904242, 2773480762,
   1359893119, 2600822924, 528734635, 1541459225]

/-- Padding: append `0x80`, zeros to 56 mod 64, and the 64-bit big-endian bit length. -/

def sha256pad (msg : List Nat) : List Nat :=
  let len := msg.length
  msg ++ 0x80 :: List.replicate ((119 - len % 64) % 64) 0 ++
    [len * 8 / 2 ^ 56 % 256, len * 8 / 2 ^ 48 % 256, len * 8 / 2 ^ 40 % 256,
     len * 8 / 2 ^ 32 % 256, len * 8 / 2 ^ 24 % 256, len * 8 / 2 ^ 16 % 256,
     len * 8 / 2 ^ 8 % 256, len * 8 % 256]

/-- Split into 64-byte blocks (fuelled structural recursion). -/

def toBlocksFuel : Nat → List Nat → List (List Nat)
  | 0, _ => []
  | _, [] => []
  | fuel + 1, l => l.take 64 :: toBlocksFuel fuel (l.drop 64)

def toBlocks (l : List Nat) : List (List Nat) :=
  toBlocksFuel l.length l

/-- Big-endian 4-byte groups to 32-bit words. -/

def bytesToWords : List Nat → List Nat
  | b0 :: b1 :: b2 :: b3 :: rest =>
    (b0 * 2 ^ 24 + b1 * 2 ^ 16 + b2 * 2 ^ 8 + b3) :: bytesToWords rest
  | _ => []

/-- Extend the 16-word schedule by `k` further words. -/

def extendW (w : List Nat) : Nat → List Nat
  | 0 => w
  | k + 1 =>
    let w2 := extendW w k
    let i := w2.length
    w2 ++ [(smallSigma1 (w2.getD (i - 2) 0) + w2.getD (i - 7) 0 +
      smallSigma0 (w2.getD (i - 15) 0) + w2.getD (i - 16) 0) % 2 ^ 32]

/-- The 64 compression rounds over the zipped schedule/constants. -/

def compressRounds : List (Nat × Nat) → List Nat → List Nat
  | [], st => st
  | (wi, ki) :: rest, st =>
    match st with
    | [a, b, c, d, e, f, g, h] =>
      let t1 := (h + bigSigma1 e + ch e f g + ki + wi) % 2 ^ 32
      let t2 := (bigSigma0 a + maj a b c) % 2 ^ 32
      compressRounds rest [(t1 + t2) % 2 ^ 32, a, b, c, (d + t1) % 2 ^ 32, e, f, g]
    | _ => st

def processBlock (st : List Nat) (block : List Nat) : List Nat :=
  let w := extendW (bytesToWords block) 48
  let out := compressRounds (w.zip K256) st
  (st.zip out).map (fun p => (p.1 + p.2) % 2 ^ 32)

/-- SHA-256 of a byte list, as 32 bytes. -/

def sha256 (msg : List Nat) : List Nat :=
  let st := (toBlocks (sha256pad msg)).foldl processBlock H256
  (st.map (fun x => [x / 2 ^ 24 % 256, x / 2 ^ 16 % 256, x / 2 ^ 8 % 256, x % 256])).flatten

/-- Lowercase hex digit. -/

def hexDigitChar (n : Nat) : Char :=
  if n = 0 then '0' else if n = 1 then '1' else if n = 2 then '2' else if n = 3 then '3'
  else if n = 4 then '4' else if n = 5 then '5' else if n = 6 then '6' else if n = 7 then '7'
  else if n = 8 then '8' else if n = 9 then '9' else if n = 10 then 'a' else if n = 11 then 'b'
  else if n = 12 then 'c' else if n = 13 then 'd' else if n = 14 then 'e' else 'f'

/-- Node `Buffer.toString("hex")`: lowercase hex encoding of a byte list. -/

def bytesToHex (bs : List Nat) : String :=
  ⟨(bs.map (fun b => [hexDigitChar (b / 16 % 16), hexDigitChar (b % 16)])).flatten⟩

/-- `hashToken(token)` from src/lib/mcp-token.ts: the unsalted SHA-256 hex
digest of the token alone — no per-user salt enters the computation. -/

def hashToken (token : String) : String :=
  bytesToHex (sha256 (token.data.map Char.toNat))

/-- `verifyToken(token, hash)` from src/lib/mcp-token.ts. -/

def verifyToken (token hash : String) : Bool :=
  hashToken token == hash

/-! ## MCP endpoint authentication (src/app/api/mcp/route.ts, src/unnamed/part_004) -/

/-- A `User` row as consulted by the endpoint. -/

structure DbUser where
  id : String
  mcp_access_token : Option String := none
  deriving Repr, DecidableEq

/-- JS `s.startsWith(pre)` (character-level; exact for the ASCII uses here). -/

def jsStartsWith (s pre : String) : Bool :=
  pre.data.isPrefixOf s.data

/-- JS `s.substring(n)` for ASCII strings. -/

def jsDrop (s : String) (n : Nat) : String :=
  ⟨s.data.drop n⟩

/-- `authenticateUser(token)`: reject tokens without the `inky_` marker, then
look the user up by the stored token hash (`findUnique` on `mcp_access_token`). -/

def authenticateUser (users : List DbUser) (token : String) : Option String :=
  if ¬ jsStartsWith token "inky_" then none
  else (users.find? (fun u => u.mcp_access_token == some (hashToken token))).map
    (fun u => u.id)

/-- The slice of an endpoint response the authentication claims speak about. -/

structure McpResponse where
  status : Nat
  errorCode : Option Int := none
  deriving Repr, DecidableEq

/-- The JSON-RPC unauthorized response: error code -32001, HTTP 401. -/

def unauthorizedResponse : McpResponse := ⟨401, some (-32001)⟩

/-- The authentication gate of `POST`: missing/incorrect `Authorization` header
or failed token lookup answer with the unauthorized response before the
JSON-RPC body is processed (`rest` is the remainder of the handler, which only
ever runs with the authenticated user's id). -/

def mcpPost (users : List DbUser) (authHeader : Option String)
    (rest : String → McpResponse) : McpResponse :=
  match authHeader with
  | none => unauthorizedResponse
  | some h =>
    if ¬ jsStartsWith h "Bearer " then unauthorizedResponse
    else
      match authenticateUser users (jsDrop h 7) with
      | none => unauthorizedResponse
      | some uid => rest uid

/-- `generateMCPAccessToken` (src/unnamed/part_004): store
`hashToken(token)` as the user's `mcp_access_token`. -/

def setUserToken (users : List DbUser) (uid token : String) : List DbUser :=
  users.map (fun u =>
    if u.id == uid then { u with mcp_access_token := some (hashToken token) } else u)

/-! ## Token encryption (src/lib/mcp-token.ts `encryptToken` / `decryptToken`)

AES-256-GCM is an external primitive (`createCipheriv`/`createDecipheriv`):
it enters the embedding as a pair of function parameters, with its standard
correctness property (decryption with the same key, IV and tag inverts
encryption) as a hypothesis.  Token, key, IV, tag and ciphertext are byte
lists; hex encoding and the `iv:authTag:encrypted` formatting are concrete. -/

/-- Inverse hex digit. -/

def hexVal (c : Char) : Option Nat :=
  if c = '0' then some 0 else if c = '1' then some 1 else if c = '2' then some 2
  else if c = '3' then some 3 else if c = '4' then some 4 else if c = '5' then some 5
  else if c = '6' then some 6 else if c = '7' then some 7 else if c = '8' then some 8
  else if c = '9' then some 9 else if c = 'a' then some 10 else if c = 'b' then some 11
  else if c = 'c' then some 12 else if c = 'd' then some 13 else if c = 'e' then some 14
  else if c = 'f' then some 15 else none

/-- Hex decoding (`Buffer.from(s, "hex")` on well-formed input). -/

def hexDecode : List Char → Option (List Nat)
  | [] => some []
  | c1 :: c2 :: rest =>
    match hexVal c1, hexVal c2, hexDecode rest with
    | some hi, some lo, some bs => some ((hi * 16 + lo) :: bs)
    | _, _, _ => none
  | [_] => none

/-- `encryptToken` with the GCM primitive and its random IV as parameters:
`iv.hex ++ ":" ++ authTag.hex ++ ":" ++ ciphertext.hex`. -/

def encryptToken (gcmEnc : List Nat → List Nat → List Nat → List Nat × List Nat)
    (key iv tokenBytes : List Nat) : String :=
  let enc := gcmEnc key iv tokenBytes
  bytesToHex iv ++ ":" ++ bytesToHex enc.2 ++ ":" ++ bytesToHex enc.1

/-- `decryptToken`: split on `":"`, fail unless exactly three parts, decode the
parts and run GCM decryption (which also fails, via `final`, on tag mismatch
or malformed hex — both modelled by `none`). -/

def decryptToken (gcmDec : List Nat → List Nat → List Nat → List Nat → Option (List Nat))
    (key : List Nat) (s : String) : Option (List Nat) :=
  let parts := jsSplit s ':'
  if parts.length ≠ 3 then none
  else
    match parts with
    | [ivHex, tagHex, ctHex] =>
      match hexDecode ivHex.data, hexDecode tagHex.data, hexDecode ctHex.data with
      | some iv, some tag, some ct => gcmDec key iv ct tag
      | _, _, _ => none
    | _ => none

/-! ## Rule versioning service (`createRule` / `updateRule`,
src/unnamed/part_002, the rule_actions server-action module; `createRule` at
lines 880-915 and 1165-1251, `updateRule` at lines 919-975 and 1254-1340 —
the two copies have the same database semantics, the longer one adding
logging and the best-effort Pinecone indexing that is swallowed on failure).

The embedding models the relational `Rule` table transition for an
authenticated user with validated input (the surrounding auth and zod
layers reject before any side effect).  Records are listed newest first
(`created_at desc`); the database-generated record ids are modelled as
sequentially allocated naturals, fresh and distinct. -/

/-- A `Rule` row as written by the actions: owner, optional repository link,
payload, version, parent link, active flag. -/

structure RuleRec where
  id : Nat
  user_id : String
  repository_id : Option String := none
  name : String
  content : String
  version : Nat
  parent_rule_id : Option Nat := none
  is_active : Bool := true
  deriving Repr, DecidableEq

/-- The update patch (`updateRuleSchema`: name, content, is_active all
optional; `a ?? b` on a missing field is `Option.getD`). -/

structure RulePatch where
  name : Option String := none
  content : Option String := none
  is_active : Option Bool := none
  deriving Repr, DecidableEq

/-- `createRule` (src/unnamed/part_002): insert
`{user_id, repository_id, name, content, version: 1}`; `parent_rule_id` and
`is_active` take the schema defaults (`null`, `true`). -/

def createRule (db : List RuleRec) (owner : String) (nm ct : String)
    (repo : Option String) : List RuleRec :=
  ⟨db.length, owner, repo, nm, ct, 1, none, true⟩ :: db

/-- `updateRule` (src/unnamed/part_002): `findFirst({id, user_id})`; when the
rule is absent or foreign the action returns the failure value
`"Rule not found"`; otherwise it inserts a single new record with
`version + 1`, `name`/`content`/`is_active` defaulting to the existing
record's values via `??`, `repository_id` copied, and `parent_rule_id` set to
the existing record's id — the existing record itself is left untouched. -/

def updateRule (db : List RuleRec) (rid : Nat) (owner : String) (p : RulePatch) :
    Except String (List RuleRec) :=
  match db.find? (fun r => r.id == rid && r.user_id == owner) with
  | none => Except.error "Rule not found"
  | some prev =>
    Except.ok (⟨db.length, owner, prev.repository_id, p.name.getD prev.name,
      p.content.getD prev.content, prev.version + 1, some prev.id,
      p.is_active.getD prev.is_active⟩ :: db)

/-- One update addressed to the rule's latest version (the head record): the
update strategy under which the version history stays linear.  `updateRule`
itself also accepts an older version's id; see the C7 counterexample. -/

def applyUpdate (owner : String) (db : List RuleRec) (p : RulePatch) : List RuleRec :=
  match db with
  | [] => []
  | r :: _ =>
    match updateRule db r.id owner p with
    | Except.ok db2 => db2
    | Except.error _ => db

/-- Create a rule and apply a sequence of updates, each addressed to the
successive latest version. -/

def ruleChain (owner nm ct : String) (patches : List RulePatch) : List RuleRec :=
  patches.foldl (applyUpdate owner) (createRule [] owner nm ct none)

/-- The records, newest first, form a single linear version chain down to an
initial version-1 record with no parent. -/

def linearChain : List RuleRec → Prop
  | [] => True
  | [r] => r.parent_rule_id = none ∧ r.version = 1
  | r :: s :: rest =>
    r.parent_rule_id = some s.id ∧ r.version = s.version + 1 ∧ linearChain (s :: rest)

/-- The invariant maintained by `createRule` and `applyUpdate`: with `n`
records, ids are `n-1, …, 0`, versions are `n, …, 1`, all records belong to
the owner, and the parent links form the linear chain. -/

def chainInv (owner : String) (n : Nat) (db : List RuleRec) : Prop :=
  db.map (fun r => r.id) = (List.range n).reverse ∧
  db.map (fun r => r.version) = (List.range' 1 n).reverse ∧
  db.map (fun r => r.user_id) = List.replicate n owner ∧
  linearChain db

end Inky

/-- Concrete store with a single markdown chunk of user `u1` tagged with
repositories `r1,r2`, used to exercise the retrieval lemmas. -/

def sampleStore : List Inky.NsRec :=
  [⟨Inky.getUserNamespace "u1",
    ⟨"c1", 5, ⟨"u1", "markdown", "r1,r2", some "doc preview", none, none⟩⟩⟩]

/-- The single match of `sampleStore`. -/

def sampleMatch : Inky.VMatch :=
  ⟨"c1", 5, ⟨"u1", "markdown", "r1,r2", some "doc preview", none, none⟩⟩

/-- Concrete rule vector and database row of user `u1`, for the scoping witness. -/

def sampleRuleStore : List Inky.NsRec :=
  [⟨Inky.getUserNamespace "u1",
    ⟨"v1", 7, ⟨"u1", "rule", "", none, some "rule1", none⟩⟩⟩]

/-- The database row behind `sampleRuleStore`. -/

def sampleDb : List Inky.DbRule :=
  [⟨"rule1", "u1", "My rule", "content", 1, true, none, 0⟩]

namespace Inky

theorem map_length_chunkLoop (text : List α) (csize ov : Nat) :
    ∀ fuel start, (chunkLoop text csize ov fuel start).map List.length =
      chunkLens text.length csize ov fuel start := by
  intro fuel
  induction fuel with
  | zero => intro start; simp [chunkLoop, chunkLens]
  | succ n ih =>
    intro start
    simp only [chunkLoop, chunkLens]
    by_cases h : start < text.length
    · simp only [if_pos h]
      have he : min (start + csize) text.length - start ≤ text.length - start := by omega
      have hlen : ((text.drop start).take (min (start + csize) text.length - start)).length =
          min (start + csize) text.length - start := by
        simp [List.length_take, List.length_drop]; omega
      by_cases hpos : min (start + csize) text.length - start > 0
      · simp only [hlen, if_pos hpos, List.map_cons, ih]
      · simp only [hlen, if_neg hpos, ih]
    · simp [if_neg h]

theorem map_length_chunkText (text : List α) (csize ov : Nat) :
    (chunkText text csize ov).map List.length = chunkTextLens text.length csize ov := by
  simp only [chunkText, chunkTextLens]
  by_cases h0 : text.length = 0
  · simp [h0]
  · simp only [if_neg h0]
    have hmap := map_length_chunkLoop text (max 1 csize) (min ov (max 0 (csize - 1)))
      (maxIterations text.length (max 1 csize) (min ov (max 0 (csize - 1)))) 0
    have hlen : (chunkLoop text (max 1 csize) (min ov (max 0 (csize - 1)))
        (maxIterations text.length (max 1 csize) (min ov (max 0 (csize - 1)))) 0).length =
        (chunkLens text.length (max 1 csize) (min ov (max 0 (csize - 1)))
        (maxIterations text.length (max 1 csize) (min ov (max 0 (csize - 1)))) 0).length := by
      rw [← hmap, List.length_map]
    by_cases hpos : (chunkLens text.length (max 1 csize) (min ov (max 0 (csize - 1)))
        (maxIterations text.length (max 1 csize) (min ov (max 0 (csize - 1)))) 0).length > 0
    · rw [if_pos (by omega), if_pos hpos, hmap]
    · rw [if_neg (by omega), if_neg hpos]
      simp

theorem tailReconstruct_cons (ov : Nat) (c : List α) (l : List (List α)) :
    tailReconstruct ov (c :: l) = c.drop ov ++ tailReconstruct ov l := by
  simp [tailReconstruct]

/-- Once `start` is within `ov` of the end of the text, every further chunk has
length at most `ov`, so the overlap-removed tail contributes nothing. -/

theorem tailReconstruct_chunkLoop_late (text : List α) (csize ov : Nat) (hov : ov < csize) :
    ∀ fuel start, text.length ≤ start + ov →
      tailReconstruct ov (chunkLoop text csize ov fuel start) = [] := by
  intro fuel
  induction fuel with
  | zero => intro start _; simp [chunkLoop, tailReconstruct]
  | succ n ih =>
    intro start hs
    simp only [chunkLoop]
    by_cases h : start < text.length
    · simp only [if_pos h]
      have he : min (start + csize) text.length = text.length := by omega
      have hchunk : ((text.drop start).take (min (start + csize) text.length - start)).drop ov
          = [] := by
        apply List.drop_eq_nil_of_le
        simp [List.length_take, List.length_drop]
        omega
      have hnext : text.length ≤ (if min (start + csize) text.length - ov ≤ start
          then start + 1 else min (start + csize) text.length - ov) + ov := by
        split <;> omega
      by_cases hpos : ((text.drop start).take (min (start + csize) text.length - start)).length > 0
      · simp only [if_pos hpos, tailReconstruct_cons, hchunk, List.nil_append]
        exact ih _ hnext
      · simp only [if_neg hpos]
        exact ih _ hnext
    · simp [if_neg h, tailReconstruct]

/-- Workhorse: with enough fuel, the overlap-removed chunks dropped from state
`start` reproduce exactly the text from position `start + ov` on. -/

theorem tailReconstruct_chunkLoop (text : List α) (csize ov : Nat) (hov : ov < csize) :
    ∀ fuel start, text.length ≤ start + ov + fuel * (csize - ov) →
      tailReconstruct ov (chunkLoop text csize ov fuel start) = text.drop (start + ov) := by
  intro fuel
  induction fuel with
  | zero =>
    intro start hfuel
    simp only [chunkLoop, tailReconstruct, List.map_nil, List.flatten_nil]
    exact (List.drop_eq_nil_of_le (by omega)).symm
  | succ n ih =>
    intro start hfuel
    by_cases h : start < text.length
    · by_cases hlate : text.length ≤ start + ov
      · rw [tailReconstruct_chunkLoop_late text csize ov hov _ _ hlate]
        exact (List.drop_eq_nil_of_le (by omega)).symm
      · simp only [chunkLoop, if_pos h]
        have hmin : ov < min (start + csize) text.length - start := by omega
        have hpos : ((text.drop start).take (min (start + csize) text.length - start)).length
            > 0 := by
          simp [List.length_take, List.length_drop]; omega
        simp only [if_pos hpos, tailReconstruct_cons]
        have hbranch : ¬ (min (start + csize) text.length - ov ≤ start) := by omega
        simp only [if_neg hbranch]
        set e := min (start + csize) text.length with he
        have hrest : tailReconstruct ov (chunkLoop text csize ov n (e - ov))
            = text.drop (e - ov + ov) := by
          apply ih
          have hstep : (n + 1) * (csize - ov) = (csize - ov) + n * (csize - ov) := by
            rw [Nat.succ_mul]; omega
          omega
        rw [hrest]
        have hdrop : ((text.drop start).take (e - start)).drop ov
            = (text.drop (start + ov)).take (e - start - ov) := by
          rw [List.drop_take, List.drop_drop]
        rw [hdrop]
        have he2 : e - ov + ov = e := by omega
        rw [he2]
        have hsplit : text.drop e = (text.drop (start + ov)).drop (e - start - ov) := by
          rw [List.drop_drop]
          congr 1
          omega
        rw [hsplit, ← List.take_append_drop (e - start - ov) (text.drop (start + ov))]
        rw [List.take_append_drop]
    · simp only [chunkLoop, if_neg h, tailReconstruct, List.map_nil, List.flatten_nil]
      exact (List.drop_eq_nil_of_le (by omega)).symm

theorem ceil_div_mul_ge (len d : Nat) (hd : 0 < d) : len ≤ (len + d - 1) / d * d := by
  rw [Nat.mul_comm]
  have h1 := Nat.div_add_mod (len + d - 1) d
  have h2 : (len + d - 1) % d < d := Nat.mod_lt _ hd
  omega

/-- With `0 < C` and `O < C`, the overlap-removed concatenation of the chunks
produced by `chunkText` reconstructs the input text exactly. -/

theorem reconstruct_chunkText (text : List α) (csize ov : Nat)
    (hc : 0 < csize) (hov : ov < csize) :
    reconstruct ov (chunkText text csize ov) = text := by
  by_cases h0 : text.length = 0
  · simp [chunkText, h0, reconstruct, List.length_eq_zero.mp h0]
  · have hso : min ov (max 0 (csize - 1)) = ov := by omega
    have hsc : max 1 csize = csize := by omega
    simp only [chunkText, if_neg h0, hso, hsc]
    set M := maxIterations text.length csize ov with hM
    have hM10 : 10 ≤ M := by rw [hM]; simp [maxIterations]
    obtain ⟨m, hm⟩ : ∃ m, M = m + 1 := ⟨M - 1, by omega⟩
    rw [hm]
    have hstart : (0 : Nat) < text.length := by omega
    simp only [chunkLoop, if_pos hstart, Nat.zero_add, Nat.sub_zero, List.drop_zero]
    have hpos : (text.take (min csize text.length)).length > 0 := by
      simp [List.length_take]; omega
    simp only [if_pos hpos]
    have hfuel : text.length ≤ csize + m * (csize - ov) := by
      have hd : 0 < csize - ov := by omega
      have hceil := ceil_div_mul_ge text.length (csize - ov) hd
      have hmge : (text.length + (csize - ov) - 1) / (csize - ov) + 9 ≤ m := by
        have : max 1 (csize - ov) = csize - ov := by omega
        simp only [hM, maxIterations, this] at hm
        omega
      have hmul : ((text.length + (csize - ov) - 1) / (csize - ov) + 9) * (csize - ov)
          ≤ m * (csize - ov) := Nat.mul_le_mul_right _ hmge
      rw [Nat.add_mul] at hmul
      omega
    by_cases hbr : min csize text.length - ov ≤ 0
    · -- degenerate: the very first chunk already reaches within `ov` of the end
      have hlen : text.length ≤ ov := by omega
      simp only [if_pos hbr, List.length_cons]
      rw [if_pos (by omega)]
      simp only [reconstruct]
      rw [show tailReconstruct ov (chunkLoop text csize ov m (0 + 1)) = []
        from tailReconstruct_chunkLoop_late text csize ov hov m (0 + 1) (by omega)]
      have hmin : min csize text.length = text.length := by omega
      rw [hmin]
      simp [List.take_of_length_le]
    · simp only [if_neg hbr, List.length_cons]
      rw [if_pos (by omega)]
      simp only [reconstruct]
      have hrest := tailReconstruct_chunkLoop text csize ov hov m
        (min csize text.length - ov) (by omega)
      rw [hrest]
      have he2 : min csize text.length - ov + ov = min csize text.length := by
        omega
      rw [he2]
      have := List.take_append_drop (min csize text.length) text
      rw [this]

/-- One symbolic unfolding of the loop at a state strictly inside the text. -/

theorem chunkLoop_step (text : List α) (csize ov fuel start : Nat)
    (hc : 0 < csize) (h : start < text.length) :
    chunkLoop text csize ov (fuel + 1) start =
      (text.drop start).take (min (start + csize) text.length - start) ::
        chunkLoop text csize ov fuel
          (if min (start + csize) text.length - ov ≤ start then start + 1
           else min (start + csize) text.length - ov) := by
  simp only [chunkLoop, if_pos h]
  have hpos : ((text.drop start).take (min (start + csize) text.length - start)).length
      > 0 := by
    simp [List.length_take, List.length_drop]; omega
  simp only [if_pos hpos]

/-- On a 2500-element text with `C = 1000`, `O = 200` the loop produces the three
expected sliding windows and then keeps going from position 2300. -/

theorem chunkText_2500_shape (text : List α) (h : text.length = 2500) :
    chunkText text 1000 200 =
      text.take 1000 :: (text.drop 800).take 1000 :: (text.drop 1600).take 900 ::
        chunkLoop text 1000 200 11 2300 := by
  have hshape : chunkLoop text 1000 200 (maxIterations 2500 1000 200) 0 =
      text.take 1000 :: (text.drop 800).take 1000 :: (text.drop 1600).take 900 ::
        chunkLoop text 1000 200 11 2300 := by
    rw [(by decide : maxIterations 2500 1000 200 = 13 + 1),
      chunkLoop_step text 1000 200 13 0 (by norm_num) (by omega)]
    rw [h]
    norm_num
    rw [(by norm_num : (13 : Nat) = 12 + 1),
      chunkLoop_step text 1000 200 12 800 (by norm_num) (by omega)]
    rw [h]
    norm_num
    rw [(by norm_num : (12 : Nat) = 11 + 1),
      chunkLoop_step text 1000 200 11 1600 (by norm_num) (by omega)]
    rw [h]
    norm_num
  simp only [chunkText, h]
  norm_num
  rw [hshape]
  simp

theorem chunkLoopIters_le_fuel (text : List α) (csize ov : Nat) :
    ∀ fuel start, chunkLoopIters text csize ov fuel start ≤ fuel := by
  intro fuel
  induction fuel with
  | zero => intro start; simp [chunkLoopIters]
  | succ n ih =>
    intro start
    simp only [chunkLoopIters]
    split
    · exact Nat.add_le_add_right (ih _) 1
    · omega

theorem hexDigitChar_eq_f (n : Nat) (h : 16 ≤ n) : hexDigitChar n = 'f' := by
  unfold hexDigitChar
  repeat rw [if_neg (by omega)]

theorem hexDigitChar_ne_colon (n : Nat) : hexDigitChar n ≠ ':' := by
  rcases Nat.lt_or_ge n 16 with h | h
  · interval_cases n <;> decide
  · rw [hexDigitChar_eq_f n h]; decide

theorem colon_not_mem_bytesToHex (bs : List Nat) : ':' ∉ (bytesToHex bs).data := by
  intro hmem
  obtain ⟨l, hl, hcl⟩ := List.mem_flatten.mp hmem
  obtain ⟨b, _, rfl⟩ := List.mem_map.mp hl
  simp only [List.mem_cons, List.not_mem_nil, or_false] at hcl
  rcases hcl with h | h
  · exact hexDigitChar_ne_colon _ h.symm
  · exact hexDigitChar_ne_colon _ h.symm

theorem splitListOn_exists_cons (sep : Char) (l : List Char) :
    ∃ p ps, splitListOn sep l = p :: ps := by
  induction l with
  | nil => exact ⟨[], [], rfl⟩
  | cons c cs ih =>
    obtain ⟨p, ps, hps⟩ := ih
    by_cases h : c = sep
    · exact ⟨[], p :: ps, by simp [splitListOn, hps, h]⟩
    · exact ⟨c :: p, ps, by simp [splitListOn, hps, h]⟩

theorem splitListOn_no_sep (sep : Char) (l : List Char) (h : sep ∉ l) :
    splitListOn sep l = [l] := by
  induction l with
  | nil => rfl
  | cons c cs ih =>
    simp only [List.mem_cons, not_or] at h
    have hcs : ¬ c = sep := fun heq => h.1 heq.symm
    rw [splitListOn, ih h.2]
    simp [hcs]

theorem splitListOn_append (sep : Char) (a rest : List Char) (h : sep ∉ a) :
    splitListOn sep (a ++ sep :: rest) = a :: splitListOn sep rest := by
  induction a with
  | nil =>
    obtain ⟨p, ps, hps⟩ := splitListOn_exists_cons sep rest
    simp [splitListOn, hps]
  | cons c a iha =>
    simp only [List.mem_cons, not_or] at h
    obtain ⟨p, ps, hps⟩ := splitListOn_exists_cons sep (a ++ sep :: rest)
    have := iha h.2
    rw [hps] at this
    cases this
    have hcs : ¬ c = sep := fun heq => h.1 heq.symm
    simp [splitListOn, hps, hcs]

theorem hexVal_hexDigitChar (n : Nat) (h : n < 16) : hexVal (hexDigitChar n) = some n := by
  interval_cases n <;> rfl

theorem hexDecode_bytesToHex (bs : List Nat) (h : ∀ b ∈ bs, b < 256) :
    hexDecode (bytesToHex bs).data = some bs := by
  induction bs with
  | nil => rfl
  | cons b rest ih =>
    have hb : b < 256 := h b (by simp)
    have hhead : (bytesToHex (b :: rest)).data =
        hexDigitChar (b / 16 % 16) :: hexDigitChar (b % 16) :: (bytesToHex rest).data := by
      simp [bytesToHex]
    have hb2 : b / 16 % 16 * 16 + b % 16 = b := by omega
    rw [hhead, hexDecode]
    simp [hexVal_hexDigitChar (b / 16 % 16) (by omega), hexVal_hexDigitChar (b % 16) (by omega),
      ih (fun x hx => h x (by simp [hx])), hb2]

theorem jsSplit_encryptToken (gcmEnc : List Nat → List Nat → List Nat → List Nat × List Nat)
    (key iv tokenBytes : List Nat) :
    jsSplit (encryptToken gcmEnc key iv tokenBytes) ':' =
      [bytesToHex iv, bytesToHex (gcmEnc key iv tokenBytes).2,
        bytesToHex (gcmEnc key iv tokenBytes).1] := by
  have hdata : (encryptToken gcmEnc key iv tokenBytes).data =
      (bytesToHex iv).data ++ ':' ::
        ((bytesToHex (gcmEnc key iv tokenBytes).2).data ++ ':' ::
          (bytesToHex (gcmEnc key iv tokenBytes).1).data) := by
    simp [encryptToken, String.data_append]
  simp only [jsSplit, hdata]
  rw [splitListOn_append _ _ _ (colon_not_mem_bytesToHex iv),
    splitListOn_append _ _ _ (colon_not_mem_bytesToHex _),
    splitListOn_no_sep _ _ (colon_not_mem_bytesToHex _)]
  rfl

theorem chainInv_createRule (owner nm ct : String) :
    chainInv owner 1 (createRule [] owner nm ct none) := by
  exact ⟨rfl, rfl, rfl, rfl, rfl⟩

theorem chainInv_step (owner : String) (m : Nat) (db : List RuleRec) (p : RulePatch)
    (hinv : chainInv owner (m + 1) db) :
    chainInv owner (m + 2) (applyUpdate owner db p) := by
  obtain ⟨hid, hver, hown, hchain⟩ := hinv
  have hrange : (List.range (m + 1)).reverse = m :: (List.range m).reverse := by
    rw [List.range_succ, List.reverse_append, List.reverse_singleton]
    rfl
  have hrange2 : (List.range' 1 (m + 1)).reverse = (1 + m) :: (List.range' 1 m).reverse := by
    rw [List.range'_concat, List.reverse_append, List.reverse_singleton]
    simp [List.singleton_append, Nat.one_mul]
  cases db with
  | nil => simp [hrange] at hid
  | cons r rest =>
    rw [hrange] at hid
    rw [hrange2] at hver
    simp only [List.map_cons, List.cons.injEq] at hid hver
    have hlen : (r :: rest).length = m + 1 := by
      have := congrArg List.length hid.2
      simp at this
      simp [this]
    rw [List.replicate_succ] at hown
    simp only [List.map_cons, List.cons.injEq] at hown
    obtain ⟨hown_head, hown_tail⟩ := hown
    simp only [applyUpdate, updateRule]
    rw [List.find?_cons_of_pos _ (by simp [hown_head])]
    refine ⟨?_, ?_, ?_, ?_⟩
    · simp only [List.map_cons, hlen, hid.1, hid.2]
      rw [List.range_succ, List.reverse_append, List.reverse_singleton]
      simp [hrange]
    · simp only [List.map_cons, hver.1]
      rw [List.range'_concat, List.reverse_append, List.reverse_singleton]
      simp only [List.singleton_append, List.cons.injEq]
      constructor
      · omega
      · rw [hrange2, hver.2]
    · simp only [List.map_cons, hown_head]
      rw [show m + 2 = (m + 1) + 1 from rfl, List.replicate_succ, List.replicate_succ]
      simp [hown_head, hown_tail]
    · exact ⟨rfl, rfl, hchain⟩

theorem chainInv_foldl (owner : String) :
    ∀ (patches : List RulePatch) (m : Nat) (db : List RuleRec),
      chainInv owner (m + 1) db →
      chainInv owner (m + 1 + patches.length) (patches.foldl (applyUpdate owner) db) := by
  intro patches
  induction patches with
  | nil => intro m db h; simpa using h
  | cons p ps ih =>
    intro m db h
    have h2 := chainInv_step owner m db p h
    have h3 := ih (m + 1) (applyUpdate owner db p) h2
    simpa [Nat.add_assoc, Nat.add_comm, Nat.add_left_comm] using h3

end Inky

/-- C1: for every text, chunk size `C > 0` and overlap `O < C`, concatenating the
chunks of `chunkText` with the `O`-element overlap removed reconstructs the text
exactly.  On a 2500-element text with `C = 1000`, `O = 200`, however, the code
produces 14 chunks (not 3): the first three are the sliding windows of lengths
1000, 1000 and 900 — consecutive pairs overlapping in exactly 200 elements — and
they are followed by 11 trailing suffix chunks of lengths 200 down to 190
emitted before the iteration cap stops the loop; since every trailing chunk is
no longer than the 200-element overlap, the overlap-removed concatenation still
reconstructs the text. -/

theorem chunkText_reconstructs_and_scenario :
    (∀ (α : Type) (text : List α) (csize ov : Nat), 0 < csize → ov < csize →
      Inky.reconstruct ov (Inky.chunkText text csize ov) = text) ∧
    (∀ (α : Type) (text : List α), text.length = 2500 →
      (Inky.chunkText text 1000 200).map List.length =
        [1000, 1000, 900, 200, 199, 198, 197, 196, 195, 194, 193, 192, 191, 190] ∧
      (Inky.chunkText text 1000 200).take 3 =
        [text.take 1000, (text.drop 800).take 1000, (text.drop 1600).take 900] ∧
      (text.take 1000).drop 800 = ((text.drop 800).take 1000).take 200 ∧
      ((text.drop 800).take 1000).drop 800 = ((text.drop 1600).take 900).take 200 ∧
      Inky.reconstruct 200 (Inky.chunkText text 1000 200) = text) := by
  constructor
  · intro α text csize ov hc hov
    exact Inky.reconstruct_chunkText text csize ov hc hov
  · intro α text h
    refine ⟨?_, ?_, ?_, ?_, ?_⟩
    · rw [Inky.map_length_chunkText, h]; decide
    · rw [Inky.chunkText_2500_shape text h]; rfl
    · rw [List.drop_take, List.take_take]; norm_num
    · rw [List.drop_take, List.drop_drop, List.take_take]; norm_num
    · exact Inky.reconstruct_chunkText text 1000 200 (by norm_num) (by norm_num)

theorem chunkText_reconstructs_witness :
    Inky.reconstruct 1 (Inky.chunkText ([0, 1, 2] : List Nat) 2 1) = [0, 1, 2] ∧
    (Inky.chunkText (List.range 2500) 1000 200).take 3 =
      [(List.range 2500).take 1000, ((List.range 2500).drop 800).take 1000,
        ((List.range 2500).drop 1600).take 900] :=
  ⟨chunkText_reconstructs_and_scenario.1 Nat [0, 1, 2] 2 1 (by norm_num) (by norm_num),
    (chunkText_reconstructs_and_scenario.2 Nat (List.range 2500) (by simp)).2.1⟩

/-- C1 counterexample: chunking a 2500-character text with `C = 1000`, `O = 200`
does not produce 3 chunks (it produces 14). -/

theorem chunkText_2500_not_three_chunks :
    (Inky.chunkText (List.range 2500) 1000 200).length ≠ 3 := by
  intro hcontra
  have h : (Inky.chunkText (List.range 2500) 1000 200).map List.length =
      Inky.chunkTextLens 2500 1000 200 := by
    rw [Inky.map_length_chunkText]; simp
  have h2 : (Inky.chunkTextLens 2500 1000 200).length = 3 := by
    rw [← h, List.length_map, hcontra]
  revert h2; decide

/-- C2: `chunkText` terminates on every input; the number of loop iterations is
bounded by `ceil(len / (C − O'))` plus the constant 10, where `O'` is the
overlap clamped to at most `C − 1`; and when `O ≥ C` the function behaves
exactly as with the clamped overlap `C − 1`. -/

theorem chunkText_iteration_bound_and_clamp :
    (∀ (α : Type) (text : List α) (csize ov : Nat), 0 < csize →
      Inky.chunkTextIters text csize ov ≤
        (text.length + (csize - min ov (csize - 1)) - 1) /
          (csize - min ov (csize - 1)) + 10) ∧
    (∀ (α : Type) (text : List α) (csize ov : Nat), 0 < csize → csize ≤ ov →
      Inky.chunkText text csize ov = Inky.chunkText text csize (csize - 1)) := by
  constructor
  · intro α text csize ov hc
    simp only [Inky.chunkTextIters]
    split
    · exact Nat.zero_le _
    · have hb := Inky.chunkLoopIters_le_fuel text (max 1 csize) (min ov (max 0 (csize - 1)))
        (Inky.maxIterations text.length (max 1 csize) (min ov (max 0 (csize - 1)))) 0
      have heq : Inky.maxIterations text.length (max 1 csize) (min ov (max 0 (csize - 1)))
          = (text.length + (csize - min ov (csize - 1)) - 1) /
              (csize - min ov (csize - 1)) + 10 := by
        simp only [Inky.maxIterations]
        have h1 : max 1 csize = csize := by omega
        have h2 : max 0 (csize - 1) = csize - 1 := by omega
        have h3 : max 1 (csize - min ov (csize - 1)) = csize - min ov (csize - 1) := by
          omega
        rw [h1, h2, h3]
      omega
  · intro α text csize ov hc hov
    have h1 : min ov (max 0 (csize - 1)) = min (csize - 1) (max 0 (csize - 1)) := by
      omega
    simp only [Inky.chunkText, h1]

theorem chunkText_iteration_bound_witness :
    Inky.chunkTextIters ([0, 1, 2] : List Nat) 2 1 ≤
      (([0, 1, 2] : List Nat).length + (2 - min 1 (2 - 1)) - 1) / (2 - min 1 (2 - 1)) + 10 ∧
    Inky.chunkText ([0, 1, 2, 3] : List Nat) 2 5 = Inky.chunkText ([0, 1, 2, 3] : List Nat) 2 1 :=
  ⟨chunkText_iteration_bound_and_clamp.1 Nat [0, 1, 2] 2 1 (by norm_num),
    chunkText_iteration_bound_and_clamp.2 Nat [0, 1, 2, 3] 2 5 (by norm_num) (by norm_num)⟩

/-- C3 (code bug): the empty input does yield the empty sequence, but a 500-element
input with `C = 1000`, `O = 200` yields 11 chunks rather than the single chunk the
spec requires: after emitting the whole input as its first chunk, the loop re-enters
from position `len − O` and keeps emitting trailing suffixes until the iteration cap. -/

theorem chunkText_short_input_not_single_chunk :
    Inky.chunkText ([] : List Nat) 1000 200 = [] ∧
    (Inky.chunkText (List.range 500) 1000 200).length = 11 ∧
    Inky.chunkText (List.range 500) 1000 200 ≠ [List.range 500] := by
  have h : (Inky.chunkText (List.range 500) 1000 200).map List.length =
      Inky.chunkTextLens 500 1000 200 := by
    rw [Inky.map_length_chunkText]; simp
  have hlen : (Inky.chunkText (List.range 500) 1000 200).length = 11 := by
    rw [← List.length_map (Inky.chunkText (List.range 500) 1000 200) List.length, h]
    decide
  refine ⟨rfl, hlen, ?_⟩
  intro hcontra
  rw [hcontra] at hlen
  simp at hlen

/-- C4 (amended): `generateRulesWithRAG` returns the trimmed text of the LLM
completion; when the completion is empty or missing it returns the empty string
successfully rather than failing with a GenerationError (the caller
`saveRepositories` is the one that detects the empty string and falls back). -/

theorem generateRulesWithRAG_trims_or_empty :
    ∀ (llm : String → String → Option String) (store : List Inky.NsRec)
      (query userId : String) (repositoryIds : List String) (topK : Nat),
      (∀ c, llm Inky.ragSystemPrompt
          (Inky.ragUserPrompt query
            (if Inky.ragContext store userId repositoryIds topK == "" then Inky.noContextMarker
             else Inky.ragContext store userId repositoryIds topK)) = some c →
        Inky.generateRulesWithRAG llm store query userId repositoryIds topK = Inky.jsTrim c) ∧
      (llm Inky.ragSystemPrompt
          (Inky.ragUserPrompt query
            (if Inky.ragContext store userId repositoryIds topK == "" then Inky.noContextMarker
             else Inky.ragContext store userId repositoryIds topK)) = none →
        Inky.generateRulesWithRAG llm store query userId repositoryIds topK = "") := by
  intro llm store query userId repositoryIds topK
  constructor
  · intro c h
    simp only [Inky.generateRulesWithRAG, h]
  · intro h
    simp only [Inky.generateRulesWithRAG, h]

theorem generateRulesWithRAG_trims_witness :
    Inky.generateRulesWithRAG (fun _ _ => some " rule text ") [] "q" "u" [] 10 =
      Inky.jsTrim " rule text " :=
  (generateRulesWithRAG_trims_or_empty (fun _ _ => some " rule text ") [] "q" "u" [] 10).1
    " rule text " rfl

/-- C4 counterexample: with a completion whose content is absent (or empty), the
function returns the empty string as a successful value — it does not fail. -/

theorem generateRulesWithRAG_empty_completion_returns_empty :
    Inky.generateRulesWithRAG (fun _ _ => none) [] "q" "u" [] 10 = "" ∧
    Inky.generateRulesWithRAG (fun _ _ => some "") [] "q" "u" [] 10 = "" := by
  constructor <;> rfl

/-- C5: the RAG retrieval queries the user's namespace for up to `2 × topK`
matches restricted to the markdown (documentation) type and the owning user;
with a non-empty scoping set every retained match's stored project-id list
intersects the set; the prompt context is the first `topK` survivors' preview
texts joined by the separator; and with no surviving chunks the context is
replaced by the explicit no-context marker and the LLM is still called. -/

theorem ragRetrieval_scoping_and_fallback :
    (∀ (store : List Inky.NsRec) (userId : String) (topK : Nat) (m : Inky.VMatch),
      m ∈ Inky.ragSearch store userId topK →
      m.metadata.user_id = userId ∧ m.metadata.type = "markdown") ∧
    (∀ (store : List Inky.NsRec) (userId : String) (topK : Nat),
      (Inky.ragSearch store userId topK).length ≤ topK * 2) ∧
    (∀ (store : List Inky.NsRec) (userId : String) (rids : List String) (topK : Nat)
      (m : Inky.VMatch), rids ≠ [] →
      m ∈ Inky.filteredResults store userId rids topK →
      ∃ rid ∈ rids, rid ∈ Inky.jsSplit m.metadata.repository_ids ',') ∧
    (∀ (store : List Inky.NsRec) (userId : String) (rids : List String) (topK : Nat),
      Inky.ragContext store userId rids topK = Inky.jsJoin Inky.contextSep
        (((Inky.filteredResults store userId rids topK).take topK).filterMap
          (fun m => m.metadata.content))) ∧
    (∀ (llm : String → String → Option String) (store : List Inky.NsRec)
      (query userId : String) (rids : List String) (topK : Nat),
      Inky.filteredResults store userId rids topK = [] →
      Inky.generateRulesWithRAG llm store query userId rids topK =
        match llm Inky.ragSystemPrompt (Inky.ragUserPrompt query Inky.noContextMarker) with
        | none => ""
        | some c => Inky.jsTrim c) := by
  refine ⟨?_, ?_, ?_, ?_, ?_⟩
  · intro store userId topK m hm
    simp only [Inky.ragSearch, Inky.pineconeQuery] at hm
    obtain ⟨r, hr, rfl⟩ := List.mem_map.mp (List.mem_of_mem_take hm)
    have hfilt := (List.mem_filter.mp hr).2
    simp only [Bool.and_eq_true, beq_iff_eq, Inky.ragFilter] at hfilt
    exact ⟨hfilt.2.1, hfilt.2.2⟩
  · intro store userId topK
    simp only [Inky.ragSearch, Inky.pineconeQuery]
    exact List.length_take_le _ _
  · intro store userId rids topK m hrids hm
    simp only [Inky.filteredResults] at hm
    rw [if_pos (by simpa using List.length_pos.mpr hrids)] at hm
    have hkeep := (List.mem_filter.mp hm).2
    simp only [Inky.repoKeep] at hkeep
    by_cases hempty : m.metadata.repository_ids == ""
    · rw [if_pos hempty] at hkeep; cases hkeep
    · rw [if_neg hempty] at hkeep
      obtain ⟨rid, hmem, hc⟩ := List.any_eq_true.mp hkeep
      exact ⟨rid, hmem, by simpa [List.contains, List.elem_iff] using hc⟩
  · intro store userId rids topK
    rfl
  · intro llm store query userId rids topK h
    have hctx : Inky.ragContext store userId rids topK = "" := by
      simp [Inky.ragContext, Inky.contextChunks, h, Inky.jsJoin]
    simp only [Inky.generateRulesWithRAG, hctx]
    simp

theorem ragRetrieval_scoping_witness :
    (∃ rid ∈ ["r2"], rid ∈ Inky.jsSplit sampleMatch.metadata.repository_ids ',') ∧
    Inky.generateRulesWithRAG (fun _ _ => some " ok ") [] "q" "u" [] 5 =
      Inky.jsTrim " ok " ∧
    sampleMatch.metadata.user_id = "u1" := by
  refine ⟨?_, ?_, ?_⟩
  · exact ragRetrieval_scoping_and_fallback.2.2.1 sampleStore "u1" ["r2"] 5 sampleMatch
      (by decide) (by decide)
  · exact ragRetrieval_scoping_and_fallback.2.2.2.2 (fun _ _ => some " ok ") [] "q" "u" [] 5 rfl
  · exact (ragRetrieval_scoping_and_fallback.1 sampleStore "u1" 5 sampleMatch (by decide)).1

/-- C8: vector queries are always scoped to the caller's namespace, derived
deterministically (and injectively) from the user id; both RAG retrieval and
the `search_rules` tool only consult records of that namespace whose owner
metadata equals the caller, so a search as user A never returns chunks or rules
owned by a different user B. -/

theorem vector_queries_scoped_to_caller :
    (∀ u : String, Inky.getUserNamespace u = "user_" ++ u) ∧
    (∀ a b : String, Inky.getUserNamespace a = Inky.getUserNamespace b → a = b) ∧
    (∀ (store : List Inky.NsRec) (u : String) (k : Nat) (m : Inky.VMatch),
      m ∈ Inky.ragSearch store u k →
      (∃ r ∈ store, r.ns = Inky.getUserNamespace u ∧ r.entry = m) ∧
      ∀ b : String, b ≠ u → m.metadata.user_id ≠ b) ∧
    (∀ (store : List Inky.NsRec) (u : String) (k : Nat) (rid : Option String)
      (m : Inky.VMatch), m ∈ Inky.searchRulesMatches store u k rid →
      (∃ r ∈ store, r.ns = Inky.getUserNamespace u ∧ r.entry = m) ∧
      m.metadata.user_id = u) ∧
    (∀ (store : List Inky.NsRec) (db : List Inky.DbRule) (u : String) (k : Nat)
      (rid : Option String) (sr : Inky.ScoredRule),
      sr ∈ Inky.searchRules store db u k rid → sr.rule.user_id = u) := by
  refine ⟨?_, ?_, ?_, ?_, ?_⟩
  · intro u; rfl
  · intro a b h
    exact String.ext
      (by simpa [Inky.getUserNamespace, String.data_append] using congrArg String.data h)
  · intro store u k m hm
    simp only [Inky.ragSearch, Inky.pineconeQuery] at hm
    obtain ⟨r, hr, rfl⟩ := List.mem_map.mp (List.mem_of_mem_take hm)
    have hfilt := List.mem_filter.mp hr
    simp only [Bool.and_eq_true, beq_iff_eq, Inky.ragFilter] at hfilt
    refine ⟨⟨r, hfilt.1, hfilt.2.1, rfl⟩, ?_⟩
    intro b hb
    rw [hfilt.2.2.1]
    exact fun hub => hb hub.symm
  · intro store u k rid m hm
    simp only [Inky.searchRulesMatches, Inky.pineconeQuery] at hm
    obtain ⟨r, hr, rfl⟩ := List.mem_map.mp (List.mem_of_mem_take hm)
    have hfilt := List.mem_filter.mp hr
    simp only [Bool.and_eq_true, beq_iff_eq, Inky.searchRulesFilter] at hfilt
    exact ⟨⟨r, hfilt.1, hfilt.2.1, rfl⟩, hfilt.2.2.1.1⟩
  · intro store db u k rid sr hsr
    simp only [Inky.searchRules] at hsr
    obtain ⟨r, hr, rfl⟩ := List.mem_map.mp (List.mem_mergeSort.mp hsr)
    have hfilt := List.mem_filter.mp hr
    simpa using ((Bool.and_eq_true _ _).mp hfilt.2).2

theorem vector_queries_scoped_witness :
    Inky.getUserNamespace "u1" = "user_" ++ "u1" ∧
    (Inky.VMatch.mk "v1" 7 ⟨"u1", "rule", "", none, some "rule1", none⟩).metadata.user_id
      = "u1" ∧
    (Inky.ScoredRule.mk ⟨"rule1", "u1", "My rule", "content", 1, true, none, 0⟩ 7).rule.user_id
      = "u1" := by
  refine ⟨?_, ?_, ?_⟩
  · exact vector_queries_scoped_to_caller.1 "u1"
  · exact (vector_queries_scoped_to_caller.2.2.2.1 sampleRuleStore "u1" 3 none
      ⟨"v1", 7, ⟨"u1", "rule", "", none, some "rule1", none⟩⟩ (by decide)).2
  · exact vector_queries_scoped_to_caller.2.2.2.2 sampleRuleStore sampleDb "u1" 3 none
      ⟨⟨"rule1", "u1", "My rule", "content", 1, true, none, 0⟩, 7⟩
      (List.mem_mergeSort.mpr (by decide))

/-- C9 (amended): a caller's bearer token is authenticated by matching its
unsalted SHA-256 hash against the stored hash; every request with a missing or
invalid `Authorization` header, or an unknown token, is answered with JSON-RPC
error code -32001 and HTTP status 401 before any other processing, and the rest
of the handler only ever runs with a user whose stored `mcp_access_token`
equals the SHA-256 digest of the presented token. -/

theorem mcp_bearer_auth_gate :
    (∀ (users : List Inky.DbUser) (rest : String → Inky.McpResponse),
      Inky.mcpPost users none rest = Inky.unauthorizedResponse) ∧
    (∀ (users : List Inky.DbUser) (rest : String → Inky.McpResponse) (h : String),
      Inky.jsStartsWith h "Bearer " = false →
      Inky.mcpPost users (some h) rest = Inky.unauthorizedResponse) ∧
    (∀ (users : List Inky.DbUser) (rest : String → Inky.McpResponse) (t : String),
      Inky.authenticateUser users t = none →
      Inky.mcpPost users (some ("Bearer " ++ t)) rest = Inky.unauthorizedResponse) ∧
    (∀ (users : List Inky.DbUser) (t uid : String),
      Inky.authenticateUser users t = some uid →
      ∃ u ∈ users, u.id = uid ∧ u.mcp_access_token = some (Inky.hashToken t) ∧
        Inky.jsStartsWith t "inky_" = true) ∧
    (∀ (users : List Inky.DbUser) (rest : String → Inky.McpResponse) (t uid : String),
      Inky.authenticateUser users t = some uid →
      Inky.mcpPost users (some ("Bearer " ++ t)) rest = rest uid) ∧
    Inky.unauthorizedResponse.status = 401 ∧
    Inky.unauthorizedResponse.errorCode = some (-32001) := by
  have hdrop : ∀ t : String, Inky.jsDrop ("Bearer " ++ t) 7 = t := by
    intro t
    simp only [Inky.jsDrop, String.data_append]
    rfl
  have hbearer : ∀ t : String, Inky.jsStartsWith ("Bearer " ++ t) "Bearer " = true := by
    intro t
    simp only [Inky.jsStartsWith, String.data_append, List.isPrefixOf_iff_prefix]
    exact List.prefix_append _ _
  refine ⟨?_, ?_, ?_, ?_, ?_, rfl, rfl⟩
  · intro users rest; rfl
  · intro users rest h hsw
    simp [Inky.mcpPost, hsw]
  · intro users rest t hauth
    simp [Inky.mcpPost, hbearer t, hdrop t, hauth]
  · intro users t uid hauth
    simp only [Inky.authenticateUser] at hauth
    by_cases hsw : Inky.jsStartsWith t "inky_"
    · rw [if_neg (by simpa using hsw)] at hauth
      obtain ⟨u, hfind, huid⟩ := Option.map_eq_some'.mp hauth
      have hpred := List.find?_some hfind
      refine ⟨u, List.mem_of_find?_eq_some hfind, huid, ?_, hsw⟩
      simpa [beq_iff_eq] using hpred
    · rw [if_pos (by simpa using hsw)] at hauth
      cases hauth
  · intro users rest t uid hauth
    simp [Inky.mcpPost, hbearer t, hdrop t, hauth]

theorem mcp_bearer_auth_gate_witness :
    Inky.mcpPost [] none (fun _ => ⟨200, none⟩) = Inky.unauthorizedResponse ∧
    Inky.mcpPost [] (some "Token abc") (fun _ => ⟨200, none⟩) = Inky.unauthorizedResponse ∧
    Inky.mcpPost [] (some ("Bearer " ++ "abc")) (fun _ => ⟨200, none⟩) =
      Inky.unauthorizedResponse :=
  ⟨mcp_bearer_auth_gate.1 [] (fun _ => ⟨200, none⟩),
    mcp_bearer_auth_gate.2.1 [] (fun _ => ⟨200, none⟩) "Token abc" (by decide),
    mcp_bearer_auth_gate.2.2.1 [] (fun _ => ⟨200, none⟩) "abc" (by rfl)⟩

/-- C9 counterexample: the stored credential is the unsalted SHA-256 digest of
the token alone, so two distinct users who store the same token end up with
identical stored hashes — a salted scheme would make them differ.  The digest
is the plain SHA-256 of the token, concretely computed. -/

theorem hashToken_is_unsalted_sha256 :
    Inky.setUserToken
        (Inky.setUserToken [⟨"alice", none⟩, ⟨"bob", none⟩] "alice" "inky_tok")
        "bob" "inky_tok" =
      [⟨"alice", some (Inky.hashToken "inky_tok")⟩,
        ⟨"bob", some (Inky.hashToken "inky_tok")⟩] ∧
    Inky.hashToken "inky_tok" =
      "2f9f29717ed393b121a5f2619b56bf365778b79c59a70330c6fcec73890ec843" := by
  constructor
  · rfl
  · decide

/-- C10: for every token (as its byte sequence), key and IV, decrypting the
`iv:authTag:ciphertext` string produced by `encryptToken` with the same key
recovers the token exactly, given the standard correctness property of the
external AES-256-GCM primitive (stated as hypotheses about the primitive
parameters); and `decryptToken` fails on any input that does not consist of
exactly three colon-separated parts. -/

theorem token_encrypt_decrypt_roundtrip :
    (∀ (gcmEnc : List Nat → List Nat → List Nat → List Nat × List Nat)
      (gcmDec : List Nat → List Nat → List Nat → List Nat → Option (List Nat))
      (key iv tokenBytes : List Nat),
      (∀ b ∈ iv, b < 256) →
      (∀ b ∈ (gcmEnc key iv tokenBytes).1, b < 256) →
      (∀ b ∈ (gcmEnc key iv tokenBytes).2, b < 256) →
      gcmDec key iv (gcmEnc key iv tokenBytes).1 (gcmEnc key iv tokenBytes).2
        = some tokenBytes →
      Inky.decryptToken gcmDec key (Inky.encryptToken gcmEnc key iv tokenBytes)
        = some tokenBytes) ∧
    (∀ (gcmDec : List Nat → List Nat → List Nat → List Nat → Option (List Nat))
      (key : List Nat) (s : String),
      (Inky.jsSplit s ':').length ≠ 3 → Inky.decryptToken gcmDec key s = none) := by
  constructor
  · intro gcmEnc gcmDec key iv tokenBytes hiv hct htag hinv
    simp only [Inky.decryptToken, Inky.jsSplit_encryptToken]
    rw [if_neg (by simp)]
    rw [Inky.hexDecode_bytesToHex iv hiv, Inky.hexDecode_bytesToHex _ htag,
      Inky.hexDecode_bytesToHex _ hct]
    exact hinv
  · intro gcmDec key s h
    simp only [Inky.decryptToken]
    rw [if_pos h]

theorem token_encrypt_decrypt_witness :
    Inky.decryptToken (fun _ _ ct _ => some ct) []
        (Inky.encryptToken (fun _ _ p => (p, [])) [] [0, 255] [104, 105]) =
      some [104, 105] ∧
    Inky.decryptToken (fun _ _ ct _ => some ct) [] "no colons here" = none :=
  ⟨token_encrypt_decrypt_roundtrip.1 (fun _ _ p => (p, [])) (fun _ _ ct _ => some ct)
      [] [0, 255] [104, 105] (by decide) (by decide) (by decide) rfl,
    token_encrypt_decrypt_roundtrip.2 (fun _ _ ct _ => some ct) [] "no colons here"
      (by decide)⟩

/-- C6: `updateRule` fails with the "Rule not found" failure value when no rule
with the given id belongs to the calling owner; otherwise it inserts a single
new record with version `previous + 1`, name and content defaulting to the
previous record's values when the patch omits them, `repository_id` copied,
parent link set to the previous record's id, and the previous database — the
previous record included — kept unchanged as the tail; in particular an update
with `content` omitted yields a new version whose content equals the previous
content. -/

theorem updateRule_notfound_or_append :
    (∀ (db : List Inky.RuleRec) (rid : Nat) (owner : String) (p : Inky.RulePatch),
      db.find? (fun r => r.id == rid && r.user_id == owner) = none →
      Inky.updateRule db rid owner p = Except.error "Rule not found") ∧
    (∀ (db : List Inky.RuleRec) (rid : Nat) (owner : String) (p : Inky.RulePatch)
      (prev : Inky.RuleRec),
      db.find? (fun r => r.id == rid && r.user_id == owner) = some prev →
      Inky.updateRule db rid owner p = Except.ok
        (⟨db.length, owner, prev.repository_id, p.name.getD prev.name,
          p.content.getD prev.content, prev.version + 1, some prev.id,
          p.is_active.getD prev.is_active⟩ :: db)) ∧
    (∀ (db : List Inky.RuleRec) (rid : Nat) (owner : String) (p : Inky.RulePatch)
      (prev : Inky.RuleRec),
      db.find? (fun r => r.id == rid && r.user_id == owner) = some prev →
      p.content = none →
      ∃ newRec : Inky.RuleRec,
        Inky.updateRule db rid owner p = Except.ok (newRec :: db) ∧
        newRec.content = prev.content ∧
        newRec.version = prev.version + 1 ∧
        newRec.parent_rule_id = some prev.id) := by
  refine ⟨?_, ?_, ?_⟩
  · intro db rid owner p h
    simp [Inky.updateRule, h]
  · intro db rid owner p prev h
    simp [Inky.updateRule, h]
  · intro db rid owner p prev h hc
    refine ⟨⟨db.length, owner, prev.repository_id, p.name.getD prev.name, prev.content,
      prev.version + 1, some prev.id, p.is_active.getD prev.is_active⟩, ?_, rfl, rfl, rfl⟩
    simp [Inky.updateRule, h, hc]

theorem updateRule_notfound_or_append_witness :
    Inky.updateRule (Inky.createRule [] "u" "n" "c" none) 5 "u" ⟨none, none, none⟩ =
      Except.error "Rule not found" ∧
    Inky.updateRule (Inky.createRule [] "u" "n" "c" none) 0 "u" ⟨some "n2", none, none⟩ =
      Except.ok [⟨1, "u", none, "n2", "c", 2, some 0, true⟩,
        ⟨0, "u", none, "n", "c", 1, none, true⟩] :=
  ⟨updateRule_notfound_or_append.1 (Inky.createRule [] "u" "n" "c" none) 5 "u"
      ⟨none, none, none⟩ rfl,
    updateRule_notfound_or_append.2.1 (Inky.createRule [] "u" "n" "c" none) 0 "u"
      ⟨some "n2", none, none⟩ ⟨0, "u", none, "n", "c", 1, none, true⟩ rfl⟩

/-- C7 counterexample: `updateRule` also succeeds when given an older version's
id.  After creating a rule (record 0, version 1) and updating record 0, a
second successful update addressed again to record 0 yields three records with
versions 2, 2, 1 — not the contiguous 1..3 — and two records both pointing to
parent 0: a branch, refuting the claim for arbitrary successful update
sequences. -/

theorem rule_update_branch_counterexample :
    Inky.updateRule (Inky.createRule [] "u" "n" "c" none) 0 "u" ⟨none, none, none⟩ =
      Except.ok [⟨1, "u", none, "n", "c", 2, some 0, true⟩,
        ⟨0, "u", none, "n", "c", 1, none, true⟩] ∧
    Inky.updateRule [⟨1, "u", none, "n", "c", 2, some 0, true⟩,
        ⟨0, "u", none, "n", "c", 1, none, true⟩] 0 "u" ⟨none, none, none⟩ =
      Except.ok [⟨2, "u", none, "n", "c", 2, some 0, true⟩,
        ⟨1, "u", none, "n", "c", 2, some 0, true⟩,
        ⟨0, "u", none, "n", "c", 1, none, true⟩] ∧
    ([⟨2, "u", none, "n", "c", 2, some 0, true⟩,
        ⟨1, "u", none, "n", "c", 2, some 0, true⟩,
        ⟨0, "u", none, "n", "c", 1, none, true⟩] : List Inky.RuleRec).map
      (fun r => r.version) = [2, 2, 1] ∧
    ([2, 2, 1] : List Nat) ≠ (List.range' 1 3).reverse ∧
    ([⟨2, "u", none, "n", "c", 2, some 0, true⟩,
        ⟨1, "u", none, "n", "c", 2, some 0, true⟩,
        ⟨0, "u", none, "n", "c", 1, none, true⟩] : List Inky.RuleRec).map
      (fun r => r.parent_rule_id) = [some 0, some 0, none] := by
  refine ⟨rfl, rfl, rfl, by decide, rfl⟩

/-- C7 (amended): after creating a rule (version 1) and applying any sequence
of N successful updates each addressed to the rule's successive latest version,
exactly N + 1 records exist, their versions are the contiguous sequence 1..N+1
(listed newest first), their ids are pairwise distinct, and each record after
the first points to its predecessor, forming a single linear parent chain back
to the version-1 record — no cycles and no branches.  (An update addressed to
an older version also succeeds and creates a branch; see the counterexample.) -/

theorem rule_version_history_linear :
    ∀ (owner nm ct : String) (patches : List Inky.RulePatch),
      (Inky.ruleChain owner nm ct patches).length = patches.length + 1 ∧
      (Inky.ruleChain owner nm ct patches).map (fun r => r.version) =
        (List.range' 1 (patches.length + 1)).reverse ∧
      ((Inky.ruleChain owner nm ct patches).map (fun r => r.id)).Nodup ∧
      Inky.linearChain (Inky.ruleChain owner nm ct patches) := by
  intro owner nm ct patches
  simp only [Inky.ruleChain]
  have h := Inky.chainInv_foldl owner patches 0 (Inky.createRule [] owner nm ct none)
    (Inky.chainInv_createRule owner nm ct)
  have hn : 0 + 1 + patches.length = patches.length + 1 := by omega
  rw [hn] at h
  obtain ⟨hid, hver, hown, hchain⟩ := h
  refine ⟨?_, hver, ?_, hchain⟩
  · have := congrArg List.length hver
    simpa using this
  · rw [hid]
    exact List.nodup_reverse.mpr (List.nodup_range _)
